import Mathlib

/-!
# Verification of the image-cleaner-action reconciliation and cleanup logic

A shallow embedding of the deletion-set computations, pagination, rate-limit,
deletion and verification logic of the image-cleaner-action repository
(`src/main_ephemeral.py`, `src/main_untagged.py`, `src/github/base.py`,
`src/github/packages.py`, `src/github/pullrequest.py`,
`src/regtools/images.py`), together with theorems settling the specified
properties.

External effects (the HTTP layer, the regex engine) are abstracted as
function parameters; everything the repository computes from their results is
embedded faithfully.
-/

namespace ImageCleaner

/-! ## Python dictionary model

The repository stores intermediate state in Python `dict`s.  A `dict` is
modelled as an association list built exclusively by `dinsert`: assignment
`m[k] = v` replaces the binding in place when the key exists (keeping its
original insertion position, like CPython) and appends otherwise, so keys
stay unique and in insertion order.
-/

/-- Python `m[k] = v` on a dict: replace in place, else append. -/
def dinsert {κ α : Type} [DecidableEq κ] (m : List (κ × α)) (k : κ) (v : α) :
    List (κ × α) :=
  if m.any (fun p => p.1 = k) then
    m.map (fun p => if p.1 = k then (k, v) else p)
  else
    m ++ [(k, v)]

/-- Python `del m[k]` on a dict (the source only deletes present keys). -/
def ddelete {κ α : Type} [DecidableEq κ] (m : List (κ × α)) (k : κ) :
    List (κ × α) :=
  m.filter (fun p => p.1 ≠ k)

/-- Python `m.get(k)` / `m[k]` lookup. -/
def dget? {κ α : Type} [DecidableEq κ] (m : List (κ × α)) (k : κ) : Option α :=
  (m.find? (fun p => p.1 = k)).map Prod.snd

/-- Python `m.keys()` (insertion order; `dinsert` keeps keys unique). -/
def dkeys {κ α : Type} (m : List (κ × α)) : List κ :=
  m.map Prod.fst

/-! ## Data model (`src/github/packages.py`, `src/github/branches.py`)

`ContainerPackage` wraps one registry package-version list item.
`GithubBranch` wraps one branch list item.  The regex engine is external:
`rmatch : String → Option (List (Option String))` stands for
`re.match(pattern, s)` for the run's single caller-supplied pattern,
returning the match's capture groups (`re.Match.groups()`) when it matches
and `none` when it does not.
-/

structure ContainerPackage where
  id : Int
  name : String
  url : String
  tags : List String
deriving DecidableEq, Repr

/-- `ContainerPackage.untagged`: no tags applied. -/
def ContainerPackage.untagged (pkg : ContainerPackage) : Bool :=
  pkg.tags.length = 0

/-- `ContainerPackage.tag_matches`: at least one tag matches the regex. -/
def tagMatchesRe (rmatch : String → Option (List (Option String)))
    (pkg : ContainerPackage) : Bool :=
  pkg.tags.any (fun t => (rmatch t).isSome)

structure GithubBranch where
  name : String
deriving DecidableEq, Repr

/-- `GithubBranch.matches`: `re.match(pattern, name) is not None`. -/
def branchMatches (rmatch : String → Option (List (Option String)))
    (b : GithubBranch) : Bool :=
  (rmatch b.name).isSome

/-! ## Python string primitives

Python string operations used by the embedded code, implemented over
`List Char` so that every definition evaluates inside the kernel.
-/

/-- Python regex `\w` (the repository's patterns only meet ASCII). -/
def isWordChar (c : Char) : Bool :=
  c.isAlphanum || c = '_'

/-- Numeric value of a digit run. -/
def digitsToNat (ds : List Char) : Nat :=
  ds.foldl (fun acc c => acc * 10 + (c.toNat - 48)) 0

/-- Whitespace stripped from both ends (Python `str.strip()`). -/
def stripWhite (cs : List Char) : List Char :=
  ((cs.dropWhile Char.isWhitespace).reverse.dropWhile Char.isWhitespace).reverse

/-- Python `str.strip(chars)`. -/
def stripCharsIn (bad : List Char) (cs : List Char) : List Char :=
  ((cs.dropWhile (fun c => bad.contains c)).reverse.dropWhile
    (fun c => bad.contains c)).reverse

/-- Python `str.split(sep)` for a one-character separator (empty parts are
preserved, as in Python). -/
def splitOnChar (sep : Char) : List Char → List (List Char)
  | [] => [[]]
  | c :: rest =>
    let r := splitOnChar sep rest
    if c = sep then [] :: r
    else
      match r with
      | h :: t => (c :: h) :: t
      | [] => [[c]]

/-- Python `str.lower()` (ASCII suffices for the compared values). -/
def pyLower (s : String) : String :=
  String.mk (s.toList.map Char.toLower)

/-- Python `int(s)`: optional surrounding whitespace, optional sign, a
nonempty digit run; `none` models the raised `ValueError`.  (Python's
underscore digit separators are not modelled; no capture group the
repository parses can contain one.) -/
def pyIntCore : List Char → Option Int
  | [] => none
  | '+' :: ds =>
    if ds ≠ [] ∧ ds.all Char.isDigit then some (digitsToNat ds) else none
  | '-' :: ds =>
    if ds ≠ [] ∧ ds.all Char.isDigit then some (-(digitsToNat ds : Int))
    else none
  | ds =>
    if ds.all Char.isDigit then some (digitsToNat ds) else none

def pyInt (s : String) : Option Int :=
  pyIntCore (stripWhite s.toList)

/-! ## `_GithubContainerRegistryApiBase.delete` (`src/github/packages.py`) -/

/-- Observable outcome of one `delete` call: `returned w` means the function
returns normally, having logged a warning iff `w`; `raisedRateLimit` means
it raises `RateLimitError`. -/
inductive DeleteOutcome where
  | returned (warned : Bool)
  | raisedRateLimit
deriving DecidableEq, Repr

/-- Embedding of `_GithubContainerRegistryApiBase.delete`'s response
handling, as a function of the response status and the optional
`X-RateLimit-Remaining` header value: 204 returns silently; a 403 carrying
the header raises `RateLimitError` when its value is ≤ 0 and otherwise
falls through and returns silently; every other status logs a warning and
returns. -/
def packageDelete (status : Nat) (rateRemaining : Option Int) : DeleteOutcome :=
  if status = 204 then
    .returned false
  else if status = 403 ∧ rateRemaining.isSome then
    if rateRemaining.getD 0 ≤ 0 then .raisedRateLimit
    else .returned false
  else
    .returned true

/-! ## `GithubApiBase._check_rate_limit` (`src/github/base.py`) -/

/-- Number of seconds the client sleeps after a response (0 when it does not
sleep).  The inputs are the `X-RateLimit-Remaining` and `X-RateLimit-Reset`
header values; `response.headers.get("X-RateLimit-Reset", 0)` makes a
missing reset header read 0 and `if reset_time:` skips the sleep then. -/
def checkRateLimitSleep (remaining reset : Option Int)
    (threshold now : Int) : Int :=
  match remaining with
  | none => 0
  | some r =>
    if r < threshold then
      let resetTime := reset.getD 0
      if resetTime ≠ 0 then max 0 (resetTime - now + 5)
      else 0
    else 0

/-! ## Reconciliation engine (`src/main_ephemeral.py`) -/

/-- Uncaught Python exceptions of the pull-request scheme: `indexError`
models `pkg.tags[0]` on an untagged package, `valueError` models `int()`
on a non-numeric capture group. -/
inductive PyErr where
  | indexError
  | valueError
deriving DecidableEq, Repr

/-- First non-None capture group (`for x in match.groups(): if x is not
None: ... break`). -/
def firstSomeGroup (groups : List (Option String)) : Option String :=
  (groups.find? (fun g => g.isSome)).join

/-- Loop body of `_get_tags_to_delete_pull_request`: the packages appended
to `pkgs_with_closed_pr`.  `prState n` is the `state` field of the fetched
pull request number `n`; `PullRequest.closed` is
`state.lower() == "closed"` (src/github/pullrequest.py).  A parsed pull
request number 0 is falsy in `if pr_number`, so it is warned about and
skipped exactly like a missing capture group. -/
def prSchemeLoop (rmatch : String → Option (List (Option String)))
    (prState : Int → String) :
    List ContainerPackage → Except PyErr (List ContainerPackage)
  | [] => .ok []
  | pkg :: rest =>
    if pkg.tags.length > 1 then prSchemeLoop rmatch prState rest
    else
      match pkg.tags with
      | [] => .error .indexError
      | tag0 :: _ =>
        match rmatch tag0 with
        | none => prSchemeLoop rmatch prState rest
        | some groups =>
          match firstSomeGroup groups with
          | none => prSchemeLoop rmatch prState rest
          | some g =>
            match pyInt g with
            | none => .error .valueError
            | some n =>
              if n ≠ 0 ∧ pyLower (prState n) = "closed" then
                (prSchemeLoop rmatch prState rest).map (pkg :: ·)
              else prSchemeLoop rmatch prState rest

/-- Embedding of `_get_tags_to_delete_pull_request` (src/main_ephemeral.py):
`[x.tags[0] for x in pkgs_with_closed_pr]`. -/
def getTagsToDeletePullRequest (rmatch : String → Option (List (Option String)))
    (prState : Int → String) (matchedPackages : List ContainerPackage) :
    Except PyErr (List String) :=
  (prSchemeLoop rmatch prState matchedPackages).map
    (fun pkgs => pkgs.map (fun pkg => pkg.tags.headD ""))

/-- Embedding of `_get_tag_to_delete_branch` (src/main_ephemeral.py).
Python returns `list(set(tag_names) - set(branch_names))`, whose order is
unspecified; the embedding uses the tag map's insertion order, which has
exactly the same members. -/
def getTagToDeleteBranch (rmatch : String → Option (List (Option String)))
    (branches : List GithubBranch)
    (matchedPackages : List ContainerPackage) : List String :=
  let tagMap : List (String × ContainerPackage) :=
    matchedPackages.foldl (fun m pkg =>
      if pkg.tags.length > 1 then m
      else pkg.tags.foldl (fun m' t => dinsert m' t pkg) m) []
  let branchMap : List (String × GithubBranch) :=
    branches.foldl (fun m b =>
      if branchMatches rmatch b then dinsert m b.name b else m) []
  (dkeys tagMap).filter (fun t => ¬ (dkeys branchMap).contains t)

/-- Embedding of step 2 of `_main` (src/main_ephemeral.py): packages that
are untagged or multi-tagged are skipped wholesale; the remainder feed
both `pkgs_matching_re` (first component, when the tag matches) and
`all_pkgs_tags_to_version` (second component, matching or not). -/
def ephemeralFilter (rmatch : String → Option (List (Option String)))
    (activeVersions : List ContainerPackage) :
    List ContainerPackage × List (String × ContainerPackage) :=
  activeVersions.foldl (fun acc pkg =>
    if pkg.untagged || pkg.tags.length > 1 then acc
    else
      ((if tagMatchesRe rmatch pkg then acc.1 ++ [pkg] else acc.1),
       pkg.tags.foldl (fun m t => dinsert m t pkg) acc.2)) ([], [])

inductive CleanupScheme where
  | branch
  | pullRequest
deriving DecidableEq, Repr

/-- Step 3 of `_main` (src/main_ephemeral.py): the deletion set, by scheme. -/
def ephemeralTagsToDelete (scheme : CleanupScheme)
    (rmatch : String → Option (List (Option String)))
    (prState : Int → String) (branches : List GithubBranch)
    (activeVersions : List ContainerPackage) : Except PyErr (List String) :=
  let pkgsMatching := (ephemeralFilter rmatch activeVersions).1
  match scheme with
  | .branch => .ok (getTagToDeleteBranch rmatch branches pkgsMatching)
  | .pullRequest => getTagsToDeletePullRequest rmatch prState pkgsMatching

/-- `tags_to_keep = list(set(all_pkgs_tags_to_version.keys()) -
set(tags_to_delete))` (src/main_ephemeral.py line 202; Python set order is
unspecified, key insertion order here — same members). -/
def ephemeralTagsToKeep (scheme : CleanupScheme)
    (rmatch : String → Option (List (Option String)))
    (prState : Int → String) (branches : List GithubBranch)
    (activeVersions : List ContainerPackage) : Except PyErr (List String) :=
  (ephemeralTagsToDelete scheme rmatch prState branches activeVersions).map
    (fun dels => (dkeys (ephemeralFilter rmatch activeVersions).2).filter
      (fun t => ¬ dels.contains t))

/-! ## Registry manifests (`src/regtools/images.py`, `src/regtools/models.py`) -/

def OCI_INDEX_MEDIA_TYPE : String :=
  "application/vnd.oci.image.index.v1+json"

def DOCKER_MANIFEST_LIST_MEDIA_TYPE : String :=
  "application/vnd.docker.distribution.manifest.list.v2+json"

def OCI_MANIFEST_MEDIA_TYPE : String :=
  "application/vnd.oci.image.manifest.v1+json"

def DOCKER_MANIFEST_MEDIA_TYPE : String :=
  "application/vnd.docker.distribution.manifest.v2+json"

def MANIFEST_MEDIA_TYPES : List String :=
  [OCI_INDEX_MEDIA_TYPE, DOCKER_MANIFEST_LIST_MEDIA_TYPE,
   OCI_MANIFEST_MEDIA_TYPE, DOCKER_MANIFEST_MEDIA_TYPE]

/-- One entry of a manifest's `manifests` list: `digest` is
`descriptor.get("digest")`, `mediaType` is `descriptor.get("mediaType", "")`.
The platform entry is only ever logged, so it is not modelled. -/
structure RegDescriptor where
  digest : Option String
  mediaType : String
deriving DecidableEq, Repr

/-- A fetched manifest JSON body: `mediaType` is the body's own `mediaType`
field (`""` when absent — `data.get("mediaType", "")`), `manifests` the
body's `manifests` list (`[]` when absent). -/
structure RegManifest where
  mediaType : String
  manifests : List RegDescriptor
deriving DecidableEq, Repr

/-- Embedding of `is_multi_arch_media_type` (src/regtools/images.py). -/
def isMultiArchMediaType (m : RegManifest) : Bool :=
  m.mediaType == OCI_INDEX_MEDIA_TYPE ||
    m.mediaType == DOCKER_MANIFEST_LIST_MEDIA_TYPE

/-! ## Untagged digest sweep (`src/main_untagged.py`) -/

/-- Step 1 tail of `_main` (src/main_untagged.py): build `tag_to_pkgs`
(every tag of every active version) and `untagged_versions` (digest-name to
version for versions with zero tags). -/
def untaggedPartition (activeVersions : List ContainerPackage) :
    List (String × ContainerPackage) × List (String × ContainerPackage) :=
  activeVersions.foldl (fun acc pkg =>
    ((pkg.tags.foldl (fun m t => dinsert m t pkg) acc.1),
     (if pkg.untagged then dinsert acc.2 pkg.name pkg else acc.2))) ([], [])

/-- Descriptor pass for one fetched multi-arch index:
`del untagged_versions[digest]` for every descriptor digest that is truthy
(non-None and non-empty) and currently a key of the map. -/
def sweepDescriptors (descriptors : List RegDescriptor)
    (untagged : List (String × ContainerPackage)) :
    List (String × ContainerPackage) :=
  descriptors.foldl (fun m d =>
    match d.digest with
    | some dg => if dg ≠ "" ∧ dg ∈ dkeys m then ddelete m dg else m
    | none => m) untagged

/-- Step 2 of `_main` (src/main_untagged.py): the untagged sweep.
`fetchManifest tag = none` models the caught `httpx.HTTPStatusError` — the
tag is logged and skipped.  Non-multi-arch manifests contribute nothing. -/
def untaggedSweep (fetchManifest : String → Option RegManifest)
    (tagsToKeep : List String)
    (untagged : List (String × ContainerPackage)) :
    List (String × ContainerPackage) :=
  tagsToKeep.foldl (fun m tag =>
    match fetchManifest tag with
    | none => m
    | some manifest =>
      if isMultiArchMediaType manifest then
        sweepDescriptors manifest.manifests m
      else m) untagged

/-! ## Post-deletion verifier (`src/regtools/images.py`) -/

/-- Embedding of `_check_digest_is_valid`: true iff the digest's manifest
fetch succeeds (`fetchManifest` covers `get_manifest` by tag or digest
reference; `none` models a raised fetch error). -/
def checkDigestIsValid (fetchManifest : String → Option RegManifest)
    (digest : String) : Bool :=
  (fetchManifest digest).isSome

/-- Embedding of `_check_single_tag`: the tag's own manifest fetch must
succeed; for a multi-arch index, every descriptor carrying a truthy digest
and a known manifest media type must have a fetchable digest manifest
(descriptors failing that precheck are skipped via `continue`). -/
def checkSingleTag (fetchManifest : String → Option RegManifest)
    (tag : String) : Bool :=
  match fetchManifest tag with
  | none => false
  | some root =>
    if isMultiArchMediaType root then
      (root.manifests.filter (fun d =>
        decide (d.digest.getD "" ≠ "" ∧ d.mediaType ∈ MANIFEST_MEDIA_TYPES))).all
        (fun d => checkDigestIsValid fetchManifest (d.digest.getD ""))
    else true

/-- Embedding of `check_tags_still_valid`: `false` means `any_tag_failed`
and the run raises its single terminal failure. -/
def checkTagsStillValid (fetchManifest : String → Option RegManifest)
    (tags : List String) : Bool :=
  tags.all (checkSingleTag fetchManifest)

/-! ## Pagination (`src/github/base.py`) -/

/-- One attempt of `re.search(r'rel="(\w+)"', s)` at the current position:
the literal `rel="`, one or more word characters (the capture; `\w+` can
never trade characters with the closing `"`), then the closing quote. -/
def relAt : List Char → Option String
  | 'r' :: 'e' :: 'l' :: '=' :: '"' :: rest =>
    let ws := rest.takeWhile isWordChar
    if ws.isEmpty then none
    else
      match rest.drop ws.length with
      | '"' :: _ => some (String.mk ws)
      | _ => none
  | _ => none

/-- `re.search(r'rel="(\w+)"', s)`: leftmost match's capture group. -/
def relSearch : List Char → Option String
  | [] => none
  | c :: rest =>
    match relAt (c :: rest) with
    | some g => some g
    | none => relSearch rest

/-- One attempt of `re.search(r"[?&]page=(\d+)", s)` at the current
position. -/
def pageAt : List Char → Option Nat
  | c :: 'p' :: 'a' :: 'g' :: 'e' :: '=' :: rest =>
    if c = '?' ∨ c = '&' then
      let ds := rest.takeWhile Char.isDigit
      if ds.isEmpty then none else some (digitsToNat ds)
    else none
  | _ => none

/-- `re.search(r"[?&]page=(\d+)", s)`: leftmost match's capture group as a
number. -/
def pageSearch : List Char → Option Nat
  | [] => none
  | c :: rest =>
    match pageAt (c :: rest) with
    | some n => some n
    | none => pageSearch rest

/-- Embedding of `GithubApiBase._extract_page_number`. -/
def extractPageNumber (url : String) : Option Nat :=
  pageSearch url.toList

/-- Embedding of `GithubApiBase._parse_link_header`. -/
def parseLinkHeader (linkHeader : String) : List (String × String) :=
  if linkHeader = "" then []
  else
    (splitOnChar ',' linkHeader.toList).foldl (fun links piece =>
      match splitOnChar ';' (stripWhite piece) with
      | [p0, p1] =>
        match relSearch p1 with
        | some rel =>
          dinsert links rel (String.mk (stripCharsIn ['<', '>', ' '] p0))
        | none => links
      | _ => links) []

/-- Python `sorted` on the dict keys (page numbers). -/
def pySortedNat (l : List Nat) : List Nat :=
  l.insertionSort (· ≤ ·)

/-- Dict-assembly tail of `GithubApiBase.list`: store the fetched
`(page, data)` results into `all_data` (already holding page 1), then
concatenate the pages in ascending key order. -/
def assemblePages {Item : Type} (firstPage : List Item)
    (results : List (Nat × List Item)) : List Item :=
  let allData := results.foldl (fun m r => dinsert m r.1 r.2) [(1, firstPage)]
  (pySortedNat (dkeys allData)).foldl
    (fun acc page => acc ++ (dget? allData page).getD []) []

/-- Embedding of `GithubApiBase.list` (src/github/base.py).  `firstPage` is
the first response's JSON items and `linkHeader` its `Link` header (`""`
when absent, as `resp.headers.get("Link", "")`).  `fetchPage p` is page
`p`'s items.  `completionOrder` is the order in which the concurrent
fetches of pages `2..last` deliver their `(page, data)` results into the
dict; the code launches exactly the pages `2..last`, so a run corresponds
to `completionOrder` being some permutation of `[2..last]`, and theorems
quantify over that order. -/
def githubList {Item : Type} (firstPage : List Item) (linkHeader : String)
    (fetchPage : Nat → List Item) (completionOrder : List Nat) : List Item :=
  if linkHeader = "" then firstPage
  else
    let links := parseLinkHeader linkHeader
    match extractPageNumber ((dget? links "last").getD "") with
    | none => firstPage
    | some lastPage =>
      if lastPage = 0 ∨ lastPage = 1 then firstPage
      else
        assemblePages firstPage
          (completionOrder.map (fun p => (p, fetchPage p)))

/-- Modelled composite used only to state properties: the pull-request
number the code extracts from a tag (match, first non-None group, `int`). -/
def prNumberOfTag (rmatch : String → Option (List (Option String)))
    (t : String) : Option Int :=
  ((rmatch t).bind firstSomeGroup).bind pyInt

/-- Modelled composite used only to state properties: whether one package
satisfies the pull-request scheme's deletion condition (single tag, nonzero
extracted number, fetched pull request closed). -/
def prDeleteCondB (rmatch : String → Option (List (Option String)))
    (prState : Int → String) (pkg : ContainerPackage) : Bool :=
  match pkg.tags with
  | [t] =>
    match prNumberOfTag rmatch t with
    | some n => decide (n ≠ 0) && (pyLower (prState n) == "closed")
    | none => false
  | _ => false

/-! ## Dictionary lemmas -/

theorem dkeys_dinsert {κ α : Type} [DecidableEq κ] (m : List (κ × α))
    (k : κ) (v : α) :
    dkeys (dinsert m k v) =
      if k ∈ dkeys m then dkeys m else dkeys m ++ [k] := by
  unfold dkeys dinsert
  by_cases h : m.any (fun p => p.1 = k)
  · simp only [h, if_true, List.map_map]
    rw [if_pos]
    · apply List.map_congr_left
      intro p _
      by_cases hp : p.1 = k <;> simp [hp]
    · simp only [List.any_eq_true, decide_eq_true_eq] at h
      obtain ⟨p, hp, hpk⟩ := h
      exact hpk ▸ List.mem_map_of_mem Prod.fst hp
  · have h' : k ∉ List.map Prod.fst m := by
      simp only [List.any_eq_true, decide_eq_true_eq] at h
      push_neg at h
      simp only [List.mem_map]
      rintro ⟨p, hp, hpk⟩
      exact h p hp hpk
    simp [h, h']

theorem mem_dkeys_dinsert {κ α : Type} [DecidableEq κ] (m : List (κ × α))
    (k t : κ) (v : α) :
    t ∈ dkeys (dinsert m k v) ↔ t ∈ dkeys m ∨ t = k := by
  rw [dkeys_dinsert]
  by_cases h : k ∈ dkeys m
  · simp only [h, if_true]
    constructor
    · exact Or.inl
    · rintro (ht | rfl)
      · exact ht
      · exact h
  · simp [h]

theorem mem_dkeys_ddelete {κ α : Type} [DecidableEq κ] (m : List (κ × α))
    (k t : κ) :
    t ∈ dkeys (ddelete m k) ↔ t ∈ dkeys m ∧ t ≠ k := by
  unfold dkeys ddelete
  simp only [List.mem_map, List.mem_filter, decide_eq_true_eq]
  constructor
  · rintro ⟨p, ⟨hp, hpk⟩, rfl⟩
    exact ⟨⟨p, hp, rfl⟩, hpk⟩
  · rintro ⟨⟨p, hp, rfl⟩, hne⟩
    exact ⟨p, ⟨hp, hne⟩, rfl⟩

theorem mem_dinsert_elim {κ α : Type} [DecidableEq κ] {m : List (κ × α)}
    {k : κ} {v : α} {p : κ × α} (hp : p ∈ dinsert m k v) :
    p ∈ m ∨ p = (k, v) := by
  unfold dinsert at hp
  by_cases h : m.any (fun q => q.1 = k)
  · simp only [h, if_true, List.mem_map] at hp
    obtain ⟨q, hq, hqe⟩ := hp
    by_cases hqk : q.1 = k
    · simp only [hqk, if_pos rfl] at hqe
      exact Or.inr hqe.symm
    · simp only [if_neg hqk] at hqe
      exact Or.inl (hqe ▸ hq)
  · rw [if_neg h] at hp
    simp only [List.mem_append, List.mem_singleton] at hp
    exact hp

/-! ## C9: rate-limit suspension duration -/

/-- C9 (confirmed).  For every response whose remaining-quota header is
strictly below the threshold and which carries a (nonzero) reset timestamp,
the computed suspension duration is `max 0 (reset - now + 5)` seconds. -/
theorem checkRateLimitSleep_eq (r t threshold now : Int)
    (hthr : r < threshold) (ht : t ≠ 0) :
    checkRateLimitSleep (some r) (some t) threshold now =
      max 0 (t - now + 5) := by
  simp [checkRateLimitSleep, hthr, ht]

theorem checkRateLimitSleep_eq_witness :
    (50 : Int) < 100 ∧ (1000 : Int) ≠ 0 ∧
      checkRateLimitSleep (some 50) (some 1000) 100 900 =
        max 0 (1000 - 900 + 5) :=
  ⟨by norm_num, by norm_num,
    checkRateLimitSleep_eq 50 1000 100 900 (by norm_num) (by norm_num)⟩

/-! ## C6: delete response handling -/

/-- C6 (counterexample to the claim as stated).  A 403 delete response whose
rate-limit-remaining header reads 5 returns normally but does NOT log a
warning, refuting "any other non-'no content' response logs a warning and
returns normally". -/
theorem packageDelete_counterexample :
    packageDelete 403 (some 5) = .returned false ∧
      packageDelete 403 (some 5) ≠ .returned true := by
  constructor
  · rfl
  · intro h
    simpa [packageDelete] using h

/-- C6 (amended claim, proved).  Full characterization of `delete`:
it raises the distinct rate-limit error exactly on a 403 whose
rate-limit-remaining header is ≤ 0; it logs a warning and returns exactly
on a non-204 response that is not a 403 carrying the header; it returns
silently exactly on a 204 or a 403 whose header reads > 0.  In particular
no response other than the rate-limited 403 raises, so one failed deletion
never aborts the remaining deletions. -/
theorem packageDelete_characterization (status : Nat) (rem : Option Int) :
    (packageDelete status rem = .raisedRateLimit ↔
      status = 403 ∧ ∃ r, rem = some r ∧ r ≤ 0) ∧
    (packageDelete status rem = .returned true ↔
      status ≠ 204 ∧ ¬(status = 403 ∧ rem.isSome = true)) ∧
    (packageDelete status rem = .returned false ↔
      status = 204 ∨ (status = 403 ∧ ∃ r, rem = some r ∧ 0 < r)) := by
  unfold packageDelete
  rcases rem with _ | r
  · by_cases h204 : status = 204 <;> by_cases h403 : status = 403 <;>
      simp_all
  · by_cases h204 : status = 204 <;> by_cases h403 : status = 403 <;>
      by_cases hr : r ≤ 0 <;> simp_all <;>
      (rw [if_neg (show ¬ r ≤ 0 by omega)]; simp)

/-! ## Reconciliation lemmas -/

theorem eq_singleton_of_mem_of_short {α : Type} {ts : List α} {t : α}
    (hmem : t ∈ ts) (hlen : ¬ ts.length > 1) : ts = [t] := by
  cases ts with
  | nil => cases hmem
  | cons a rest =>
    cases rest with
    | nil =>
      rw [List.mem_singleton] at hmem
      rw [hmem]
    | cons b r2 => simp at hlen

theorem mem_dkeys_tagsFoldl (pkg : ContainerPackage) (ts : List String)
    (m : List (String × ContainerPackage)) (t : String) :
    t ∈ dkeys (ts.foldl (fun m' tg => dinsert m' tg pkg) m) ↔
      t ∈ dkeys m ∨ t ∈ ts := by
  induction ts generalizing m with
  | nil => simp
  | cons a ts ih =>
    simp only [List.foldl_cons, ih, mem_dkeys_dinsert, List.mem_cons]
    tauto

theorem mem_tagsFoldl_elim {pkg : ContainerPackage} {ts : List String}
    {m : List (String × ContainerPackage)} {e : String × ContainerPackage}
    (he : e ∈ ts.foldl (fun m' tg => dinsert m' tg pkg) m) :
    e ∈ m ∨ (e.1 ∈ ts ∧ e.2 = pkg) := by
  induction ts generalizing m with
  | nil => exact Or.inl he
  | cons a ts ih =>
    rcases ih he with hin | ⟨h1, h2⟩
    · rcases mem_dinsert_elim hin with hm | rfl
      · exact Or.inl hm
      · exact Or.inr ⟨List.mem_cons_self .., rfl⟩
    · exact Or.inr ⟨List.mem_cons_of_mem _ h1, h2⟩

theorem mem_dkeys_branchTagMap (pkgs : List ContainerPackage)
    (m : List (String × ContainerPackage)) (t : String) :
    t ∈ dkeys (pkgs.foldl (fun m pkg =>
        if pkg.tags.length > 1 then m
        else pkg.tags.foldl (fun m' tg => dinsert m' tg pkg) m) m) ↔
      t ∈ dkeys m ∨ ∃ pkg ∈ pkgs, pkg.tags = [t] := by
  induction pkgs generalizing m with
  | nil => simp
  | cons pkg pkgs ih =>
    simp only [List.foldl_cons]
    by_cases h : pkg.tags.length > 1
    · rw [if_pos h, ih]
      constructor
      · rintro (hm | ⟨q, hq, ht⟩)
        · exact Or.inl hm
        · exact Or.inr ⟨q, List.mem_cons_of_mem _ hq, ht⟩
      · rintro (hm | ⟨q, hq, ht⟩)
        · exact Or.inl hm
        · rcases List.mem_cons.mp hq with rfl | hq'
          · rw [ht] at h
            simp at h
          · exact Or.inr ⟨q, hq', ht⟩
    · rw [if_neg h, ih, mem_dkeys_tagsFoldl]
      constructor
      · rintro ((hm | hts) | ⟨q, hq, ht⟩)
        · exact Or.inl hm
        · exact Or.inr ⟨pkg, List.mem_cons_self ..,
            eq_singleton_of_mem_of_short hts h⟩
        · exact Or.inr ⟨q, List.mem_cons_of_mem _ hq, ht⟩
      · rintro (hm | ⟨q, hq, ht⟩)
        · exact Or.inl (Or.inl hm)
        · rcases List.mem_cons.mp hq with rfl | hq'
          · exact Or.inl (Or.inr (ht ▸ List.mem_singleton.mpr rfl))
          · exact Or.inr ⟨q, hq', ht⟩

theorem mem_dkeys_branchMap (rmatch : String → Option (List (Option String)))
    (branches : List GithubBranch) (m : List (String × GithubBranch))
    (t : String) :
    t ∈ dkeys (branches.foldl (fun m b =>
        if branchMatches rmatch b then dinsert m b.name b else m) m) ↔
      t ∈ dkeys m ∨ ∃ b ∈ branches, b.name = t ∧ (rmatch t).isSome := by
  induction branches generalizing m with
  | nil => simp
  | cons b bs ih =>
    simp only [List.foldl_cons]
    by_cases h : branchMatches rmatch b
    · rw [if_pos h, ih, mem_dkeys_dinsert]
      constructor
      · rintro ((hm | rfl) | ⟨b', hb', ht⟩)
        · exact Or.inl hm
        · exact Or.inr ⟨b, List.mem_cons_self .., rfl, h⟩
        · exact Or.inr ⟨b', List.mem_cons_of_mem _ hb', ht⟩
      · rintro (hm | ⟨b', hb', ht, hmat⟩)
        · exact Or.inl (Or.inl hm)
        · rcases List.mem_cons.mp hb' with rfl | hb''
          · exact Or.inl (Or.inr ht.symm)
          · exact Or.inr ⟨b', hb'', ht, hmat⟩
    · rw [if_neg h, ih]
      constructor
      · rintro (hm | ⟨b', hb', ht⟩)
        · exact Or.inl hm
        · exact Or.inr ⟨b', List.mem_cons_of_mem _ hb', ht⟩
      · rintro (hm | ⟨b', hb', ht, hmat⟩)
        · exact Or.inl hm
        · rcases List.mem_cons.mp hb' with rfl | hb''
          · exact absurd (ht ▸ hmat) (by simpa [branchMatches] using h)
          · exact Or.inr ⟨b', hb'', ht, hmat⟩

theorem mem_getTagToDeleteBranch
    (rmatch : String → Option (List (Option String)))
    (branches : List GithubBranch) (pkgs : List ContainerPackage)
    (t : String) :
    t ∈ getTagToDeleteBranch rmatch branches pkgs ↔
      (∃ pkg ∈ pkgs, pkg.tags = [t]) ∧
        ¬ ∃ b ∈ branches, b.name = t ∧ (rmatch b.name).isSome := by
  have h1 := mem_dkeys_branchTagMap pkgs [] t
  have h2 := mem_dkeys_branchMap rmatch branches [] t
  have hnil : t ∈ dkeys ([] : List (String × ContainerPackage)) ↔ False := by
    simp [dkeys]
  have hnil2 : t ∈ dkeys ([] : List (String × GithubBranch)) ↔ False := by
    simp [dkeys]
  rw [hnil, false_or] at h1
  rw [hnil2, false_or] at h2
  simp only [getTagToDeleteBranch]
  rw [List.mem_filter, h1]
  constructor
  · rintro ⟨hmem, hpred⟩
    simp only [decide_eq_true_eq] at hpred
    refine ⟨hmem, fun hex => hpred ?_⟩
    rw [List.elem_iff, h2]
    obtain ⟨b, hb, hname, hmat⟩ := hex
    exact ⟨b, hb, hname, by rw [← hname]; exact hmat⟩
  · rintro ⟨hmem, hnb⟩
    refine ⟨hmem, ?_⟩
    simp only [decide_eq_true_eq]
    intro hcontains
    rw [List.elem_iff, h2] at hcontains
    obtain ⟨b, hb, hname, hmat⟩ := hcontains
    exact hnb ⟨b, hb, hname, by rw [hname]; exact hmat⟩

theorem prSchemeLoop_ok_eq
    (rmatch : String → Option (List (Option String)))
    (prState : Int → String) (pkgs : List ContainerPackage)
    (res : List ContainerPackage)
    (hok : prSchemeLoop rmatch prState pkgs = .ok res) :
    res = pkgs.filter (prDeleteCondB rmatch prState) := by
  induction pkgs generalizing res with
  | nil =>
    simp only [prSchemeLoop] at hok
    cases hok
    simp
  | cons q rest ih =>
    simp only [prSchemeLoop] at hok
    rw [List.filter_cons]
    by_cases hlen : q.tags.length > 1
    · rw [if_pos hlen] at hok
      have hB : prDeleteCondB rmatch prState q = false := by
        unfold prDeleteCondB
        cases hq : q.tags with
        | nil => rfl
        | cons a tl =>
          cases tl with
          | nil => rw [hq] at hlen; simp at hlen
          | cons b tl2 => rfl
      rw [hB, if_neg (by simp)]
      exact ih res hok
    · rw [if_neg hlen] at hok
      cases htq : q.tags with
      | nil =>
        rw [htq] at hok
        cases hok
      | cons tag0 tl =>
        have htl : tl = [] := by
          rw [htq] at hlen
          cases tl with
          | nil => rfl
          | cons b tl2 => simp at hlen
        subst htl
        rw [htq] at hok
        simp only at hok
        have hBdef : prDeleteCondB rmatch prState q =
            match prNumberOfTag rmatch tag0 with
            | some n => decide (n ≠ 0) && (pyLower (prState n) == "closed")
            | none => false := by
          unfold prDeleteCondB
          rw [htq]
        cases hm : rmatch tag0 with
        | none =>
          rw [hm] at hok
          have hchain : prNumberOfTag rmatch tag0 = none := by
            unfold prNumberOfTag
            rw [hm]
            rfl
          rw [hBdef, hchain, if_neg (by simp)]
          exact ih res hok
        | some groups =>
          rw [hm] at hok
          simp only at hok
          cases hg : firstSomeGroup groups with
          | none =>
            rw [hg] at hok
            have hchain : prNumberOfTag rmatch tag0 = none := by
              unfold prNumberOfTag
              rw [hm, Option.some_bind, hg]
              rfl
            rw [hBdef, hchain, if_neg (by simp)]
            exact ih res hok
          | some g =>
            rw [hg] at hok
            simp only at hok
            cases hi : pyInt g with
            | none =>
              rw [hi] at hok
              cases hok
            | some n0 =>
              rw [hi] at hok
              simp only at hok
              have hchain : prNumberOfTag rmatch tag0 = some n0 := by
                unfold prNumberOfTag
                rw [hm, Option.some_bind, hg, Option.some_bind, hi]
              by_cases hcl : n0 ≠ 0 ∧ pyLower (prState n0) = "closed"
              · rw [if_pos hcl] at hok
                cases hrest : prSchemeLoop rmatch prState rest with
                | error e =>
                  rw [hrest] at hok
                  cases hok
                | ok res' =>
                  rw [hrest] at hok
                  simp only [Except.map] at hok
                  cases hok
                  rw [hBdef, hchain]
                  rw [if_pos (by simp [hcl.1, hcl.2])]
                  rw [ih res' hrest]
              · rw [if_neg hcl] at hok
                rw [hBdef, hchain]
                rw [if_neg (by
                  simp only [Bool.and_eq_true, decide_eq_true_eq,
                    beq_iff_eq]
                  exact fun h => hcl ⟨h.1, h.2⟩)]
                exact ih res hok

theorem mem_getTagsToDeletePullRequest
    (rmatch : String → Option (List (Option String)))
    (prState : Int → String) (pkgs : List ContainerPackage)
    (res : List String)
    (hok : getTagsToDeletePullRequest rmatch prState pkgs = .ok res)
    (t : String) :
    t ∈ res ↔ (∃ pkg ∈ pkgs, pkg.tags = [t]) ∧
      ∃ n, prNumberOfTag rmatch t = some n ∧ n ≠ 0 ∧
        pyLower (prState n) = "closed" := by
  unfold getTagsToDeletePullRequest at hok
  cases hloop : prSchemeLoop rmatch prState pkgs with
  | error e =>
    rw [hloop] at hok
    cases hok
  | ok lres =>
    rw [hloop] at hok
    simp only [Except.map] at hok
    cases hok
    have heq := prSchemeLoop_ok_eq rmatch prState pkgs lres hloop
    subst heq
    simp only [List.mem_map, List.mem_filter]
    constructor
    · rintro ⟨p, ⟨hp, hB⟩, rfl⟩
      cases htp : p.tags with
      | nil =>
        have hfalse : prDeleteCondB rmatch prState p = false := by
          unfold prDeleteCondB
          rw [htp]
        rw [hfalse] at hB
        cases hB
      | cons t0 tl =>
        cases tl with
        | cons b tl2 =>
          have hfalse : prDeleteCondB rmatch prState p = false := by
            unfold prDeleteCondB
            rw [htp]
          rw [hfalse] at hB
          cases hB
        | nil =>
          have hBdef : prDeleteCondB rmatch prState p =
              match prNumberOfTag rmatch t0 with
              | some n => decide (n ≠ 0) && (pyLower (prState n) == "closed")
              | none => false := by
            unfold prDeleteCondB
            rw [htp]
          rw [hBdef] at hB
          rw [List.headD_cons]
          cases hnum : prNumberOfTag rmatch t0 with
          | none =>
            rw [hnum] at hB
            cases hB
          | some n =>
            rw [hnum] at hB
            simp only [Bool.and_eq_true, decide_eq_true_eq,
              beq_iff_eq] at hB
            exact ⟨⟨p, hp, htp⟩, n, rfl, hB.1, hB.2⟩
    · rintro ⟨⟨p, hp, htp⟩, n, hnum, hne, hcl⟩
      have hB : prDeleteCondB rmatch prState p = true := by
        have hBdef : prDeleteCondB rmatch prState p =
            match prNumberOfTag rmatch t with
            | some n => decide (n ≠ 0) && (pyLower (prState n) == "closed")
            | none => false := by
          unfold prDeleteCondB
          rw [htp]
        rw [hBdef, hnum]
        simp [hne, hcl]
      exact ⟨p, ⟨hp, hB⟩, by rw [htp]; rfl⟩

/-! ## C3: pull-request-scheme deletion set -/

/-- C3 (counterexample to the claim as stated).  For the tag `pr-0` whose
first capture group is `"0"` — parseable as the pull-request number 0 —
with the fetched pull request in state `closed`, the claim puts the tag in
the deletion set, but the code's `if pr_number` treats the parsed 0 as
falsy and keeps the tag: the computed deletion set is empty. -/
theorem pullRequestScheme_counterexample :
    getTagsToDeletePullRequest
        (fun s => if s = "pr-0" then some [some "0"] else none)
        (fun _ => "closed")
        [ContainerPackage.mk 1 "A" "u" ["pr-0"]] = .ok [] ∧
      prNumberOfTag (fun s => if s = "pr-0" then some [some "0"] else none)
          "pr-0" = some 0 ∧
      pyLower "closed" = "closed" :=
  ⟨by rfl, by rfl, by rfl⟩

/-- C3 (amended claim, proved).  Its tag is in the deletion set iff the
first non-null capturing group parses as a NONZERO pull-request number and
the fetched pull request's state is `closed` compared case-insensitively;
a tag from which no number (or only the number 0) can be extracted is kept,
never deleted.  (When a capture group parses to 0, `if pr_number` is falsy
and the code logs "could not extract" and keeps the tag.) -/
theorem pullRequestScheme_deletionSet
    (rmatch : String → Option (List (Option String)))
    (prState : Int → String) (pkgs : List ContainerPackage)
    (res : List String)
    (hok : getTagsToDeletePullRequest rmatch prState pkgs = .ok res) :
    ∀ t, t ∈ res ↔ (∃ pkg ∈ pkgs, pkg.tags = [t]) ∧
      ∃ n, prNumberOfTag rmatch t = some n ∧ n ≠ 0 ∧
        pyLower (prState n) = "closed" :=
  fun t => mem_getTagsToDeletePullRequest rmatch prState pkgs res hok t

theorem pullRequestScheme_deletionSet_witness :
    (getTagsToDeletePullRequest
        (fun s => if s = "pr-42" then some [some "42"] else none)
        (fun _ => "Closed")
        [ContainerPackage.mk 1 "A" "u" ["pr-42"]] = .ok ["pr-42"]) ∧
    ("pr-42" ∈ ["pr-42"] ↔
      (∃ pkg ∈ [ContainerPackage.mk 1 "A" "u" ["pr-42"]],
          pkg.tags = ["pr-42"]) ∧
        ∃ n, prNumberOfTag
            (fun s => if s = "pr-42" then some [some "42"] else none)
            "pr-42" = some n ∧ n ≠ 0 ∧
          pyLower ((fun _ : Int => "Closed") n) = "closed") :=
  ⟨by rfl, pullRequestScheme_deletionSet
    (fun s => if s = "pr-42" then some [some "42"] else none)
    (fun _ => "Closed") [ContainerPackage.mk 1 "A" "u" ["pr-42"]]
    ["pr-42"] (by rfl) "pr-42"⟩

/-! ## C2: branch-scheme deletion set -/

/-- C2 (confirmed).  For single-tag packages whose tag matches the regex,
the branch-scheme deletion set is exactly the tag names minus the branch
names matching the same regex, and a tag is absent from the deletion set
iff some live branch has exactly that name. -/
theorem branchScheme_deletionSet
    (rmatch : String → Option (List (Option String)))
    (branches : List GithubBranch) (pkgs : List ContainerPackage)
    (hsingle : ∀ pkg ∈ pkgs, pkg.tags.length = 1 ∧ tagMatchesRe rmatch pkg) :
    ∀ t, (t ∈ getTagToDeleteBranch rmatch branches pkgs ↔
            (∃ pkg ∈ pkgs, pkg.tags = [t]) ∧
              ¬ ∃ b ∈ branches, b.name = t ∧ (rmatch b.name).isSome) ∧
         ((∃ pkg ∈ pkgs, pkg.tags = [t]) →
            (t ∉ getTagToDeleteBranch rmatch branches pkgs ↔
              ∃ b ∈ branches, b.name = t)) := by
  intro t
  refine ⟨mem_getTagToDeleteBranch rmatch branches pkgs t, ?_⟩
  rintro ⟨pkg, hpkg, htags⟩
  have hmat : (rmatch t).isSome := by
    have := (hsingle pkg hpkg).2
    unfold tagMatchesRe at this
    rw [htags] at this
    simpa using this
  rw [mem_getTagToDeleteBranch rmatch branches pkgs t]
  constructor
  · intro hnot
    by_contra hnb
    push_neg at hnb
    exact hnot ⟨⟨pkg, hpkg, htags⟩, fun ⟨b, hb, hname, _⟩ => hnb b hb hname⟩
  · rintro ⟨b, hb, hname⟩ ⟨_, hnone⟩
    exact hnone ⟨b, hb, hname, by rw [hname]; exact hmat⟩

theorem branchScheme_deletionSet_witness :
    (∀ pkg ∈ [ContainerPackage.mk 1 "a" "ua" ["v1"],
              ContainerPackage.mk 2 "b" "ub" ["v2"],
              ContainerPackage.mk 3 "c" "uc" ["v3"]],
       pkg.tags.length = 1 ∧
         tagMatchesRe (fun s => if s = "v1" ∨ s = "v2" ∨ s = "v3" then
           some [] else none) pkg) ∧
    (∃ pkg ∈ [ContainerPackage.mk 1 "a" "ua" ["v1"],
              ContainerPackage.mk 2 "b" "ub" ["v2"],
              ContainerPackage.mk 3 "c" "uc" ["v3"]], pkg.tags = ["v2"]) ∧
    ("v2" ∉ getTagToDeleteBranch
        (fun s => if s = "v1" ∨ s = "v2" ∨ s = "v3" then some [] else none)
        [GithubBranch.mk "v1", GithubBranch.mk "v3"]
        [ContainerPackage.mk 1 "a" "ua" ["v1"],
         ContainerPackage.mk 2 "b" "ub" ["v2"],
         ContainerPackage.mk 3 "c" "uc" ["v3"]] ↔
      ∃ b ∈ [GithubBranch.mk "v1", GithubBranch.mk "v3"], b.name = "v2") :=
  ⟨by decide, by decide,
    (branchScheme_deletionSet _ _ _ (by decide) "v2").2 (by decide)⟩

/-! ## `_main` filter-step lemmas (`src/main_ephemeral.py`) -/

theorem ephemeralFilter_fst_go
    (rmatch : String → Option (List (Option String)))
    (active : List ContainerPackage)
    (acc : List ContainerPackage × List (String × ContainerPackage))
    (p : ContainerPackage) :
    p ∈ (active.foldl (fun acc pkg =>
        if pkg.untagged || pkg.tags.length > 1 then acc
        else
          ((if tagMatchesRe rmatch pkg then acc.1 ++ [pkg] else acc.1),
           pkg.tags.foldl (fun m t => dinsert m t pkg) acc.2)) acc).1 ↔
      p ∈ acc.1 ∨
        (p ∈ active ∧ p.tags.length = 1 ∧ tagMatchesRe rmatch p) := by
  induction active generalizing acc with
  | nil => simp
  | cons q rest ih =>
    simp only [List.foldl_cons]
    by_cases hskip : (q.untagged || decide (q.tags.length > 1)) = true
    · rw [if_pos hskip, ih]
      have hq : ¬ (q.tags.length = 1) := by
        simp only [Bool.or_eq_true, decide_eq_true_eq,
          ContainerPackage.untagged] at hskip
        omega
      constructor
      · rintro (hacc | hrest)
        · exact Or.inl hacc
        · exact Or.inr ⟨List.mem_cons_of_mem _ hrest.1, hrest.2⟩
      · rintro (hacc | ⟨hmem, hlen, hmat⟩)
        · exact Or.inl hacc
        · rcases List.mem_cons.mp hmem with rfl | hmem'
          · exact absurd hlen hq
          · exact Or.inr ⟨hmem', hlen, hmat⟩
    · rw [if_neg hskip, ih]
      have hq : q.tags.length = 1 := by
        simp only [Bool.or_eq_true, decide_eq_true_eq,
          ContainerPackage.untagged, not_or] at hskip
        omega
      by_cases hmat : tagMatchesRe rmatch q
      · rw [if_pos hmat]
        simp only [List.mem_append, List.mem_singleton]
        constructor
        · rintro ((hacc | rfl) | hrest)
          · exact Or.inl hacc
          · exact Or.inr ⟨List.mem_cons_self .., hq, hmat⟩
          · exact Or.inr ⟨List.mem_cons_of_mem _ hrest.1, hrest.2⟩
        · rintro (hacc | ⟨hmem, hlen, hmat'⟩)
          · exact Or.inl (Or.inl hacc)
          · rcases List.mem_cons.mp hmem with rfl | hmem'
            · exact Or.inl (Or.inr rfl)
            · exact Or.inr ⟨hmem', hlen, hmat'⟩
      · rw [if_neg hmat]
        constructor
        · rintro (hacc | hrest)
          · exact Or.inl hacc
          · exact Or.inr ⟨List.mem_cons_of_mem _ hrest.1, hrest.2⟩
        · rintro (hacc | ⟨hmem, hlen, hmat'⟩)
          · exact Or.inl hacc
          · rcases List.mem_cons.mp hmem with rfl | hmem'
            · exact absurd hmat' hmat
            · exact Or.inr ⟨hmem', hlen, hmat'⟩

theorem ephemeralFilter_snd_keys_go
    (rmatch : String → Option (List (Option String)))
    (active : List ContainerPackage)
    (acc : List ContainerPackage × List (String × ContainerPackage))
    (t : String) :
    t ∈ dkeys (active.foldl (fun acc pkg =>
        if pkg.untagged || pkg.tags.length > 1 then acc
        else
          ((if tagMatchesRe rmatch pkg then acc.1 ++ [pkg] else acc.1),
           pkg.tags.foldl (fun m t => dinsert m t pkg) acc.2)) acc).2 ↔
      t ∈ dkeys acc.2 ∨ ∃ pkg ∈ active, pkg.tags = [t] := by
  induction active generalizing acc with
  | nil => simp
  | cons q rest ih =>
    simp only [List.foldl_cons]
    by_cases hskip : (q.untagged || decide (q.tags.length > 1)) = true
    · rw [if_pos hskip, ih]
      have hq : ¬ (q.tags.length = 1) := by
        simp only [Bool.or_eq_true, decide_eq_true_eq,
          ContainerPackage.untagged] at hskip
        omega
      constructor
      · rintro (hacc | ⟨q', hq', ht⟩)
        · exact Or.inl hacc
        · exact Or.inr ⟨q', List.mem_cons_of_mem _ hq', ht⟩
      · rintro (hacc | ⟨q', hq', ht⟩)
        · exact Or.inl hacc
        · rcases List.mem_cons.mp hq' with rfl | hq''
          · rw [ht] at hq
            simp at hq
          · exact Or.inr ⟨q', hq'', ht⟩
    · rw [if_neg hskip, ih]
      have hq : q.tags.length = 1 := by
        simp only [Bool.or_eq_true, decide_eq_true_eq,
          ContainerPackage.untagged, not_or] at hskip
        omega
      rw [mem_dkeys_tagsFoldl]
      constructor
      · rintro ((hacc | hts) | ⟨q', hq', ht⟩)
        · exact Or.inl hacc
        · refine Or.inr ⟨q, List.mem_cons_self .., ?_⟩
          exact eq_singleton_of_mem_of_short hts (by omega)
        · exact Or.inr ⟨q', List.mem_cons_of_mem _ hq', ht⟩
      · rintro (hacc | ⟨q', hq', ht⟩)
        · exact Or.inl (Or.inl hacc)
        · rcases List.mem_cons.mp hq' with rfl | hq''
          · exact Or.inl (Or.inr (ht ▸ List.mem_singleton.mpr rfl))
          · exact Or.inr ⟨q', hq'', ht⟩

theorem ephemeralFilter_snd_entries_go
    (rmatch : String → Option (List (Option String)))
    (active : List ContainerPackage)
    (acc : List ContainerPackage × List (String × ContainerPackage))
    (e : String × ContainerPackage)
    (he : e ∈ (active.foldl (fun acc pkg =>
        if pkg.untagged || pkg.tags.length > 1 then acc
        else
          ((if tagMatchesRe rmatch pkg then acc.1 ++ [pkg] else acc.1),
           pkg.tags.foldl (fun m t => dinsert m t pkg) acc.2)) acc).2) :
    e ∈ acc.2 ∨ ∃ pkg ∈ active, pkg.tags = [e.1] ∧ e.2 = pkg := by
  induction active generalizing acc with
  | nil => exact Or.inl he
  | cons q rest ih =>
    simp only [List.foldl_cons] at he
    by_cases hskip : (q.untagged || decide (q.tags.length > 1)) = true
    · rw [if_pos hskip] at he
      rcases ih _ he with hacc | ⟨q', hq', ht, hv⟩
      · exact Or.inl hacc
      · exact Or.inr ⟨q', List.mem_cons_of_mem _ hq', ht, hv⟩
    · rw [if_neg hskip] at he
      have hq : q.tags.length = 1 := by
        simp only [Bool.or_eq_true, decide_eq_true_eq,
          ContainerPackage.untagged, not_or] at hskip
        omega
      rcases ih _ he with hacc | ⟨q', hq', ht, hv⟩
      · rcases mem_tagsFoldl_elim hacc with hacc2 | ⟨h1, h2⟩
        · exact Or.inl hacc2
        · exact Or.inr ⟨q, List.mem_cons_self ..,
            eq_singleton_of_mem_of_short h1 (by omega), h2⟩
      · exact Or.inr ⟨q', List.mem_cons_of_mem _ hq', ht, hv⟩

theorem mem_ephemeralFilter_fst
    (rmatch : String → Option (List (Option String)))
    (active : List ContainerPackage) (p : ContainerPackage) :
    p ∈ (ephemeralFilter rmatch active).1 ↔
      p ∈ active ∧ p.tags.length = 1 ∧ tagMatchesRe rmatch p := by
  unfold ephemeralFilter
  rw [ephemeralFilter_fst_go]
  simp

theorem mem_dkeys_ephemeralFilter_snd
    (rmatch : String → Option (List (Option String)))
    (active : List ContainerPackage) (t : String) :
    t ∈ dkeys (ephemeralFilter rmatch active).2 ↔
      ∃ pkg ∈ active, pkg.tags = [t] := by
  unfold ephemeralFilter
  rw [ephemeralFilter_snd_keys_go]
  simp [dkeys]

theorem ephemeralFilter_snd_entries
    (rmatch : String → Option (List (Option String)))
    (active : List ContainerPackage) (e : String × ContainerPackage)
    (he : e ∈ (ephemeralFilter rmatch active).2) :
    ∃ pkg ∈ active, pkg.tags = [e.1] ∧ e.2 = pkg := by
  unfold ephemeralFilter at he
  rcases ephemeralFilter_snd_entries_go rmatch active ([], []) e he with
    hacc | hex
  · cases hacc
  · exact hex

theorem dget?_mem {κ α : Type} [DecidableEq κ] (m : List (κ × α)) (k : κ)
    (v : α) (h : dget? m k = some v) : (k, v) ∈ m := by
  unfold dget? at h
  cases hf : m.find? (fun p => p.1 = k) with
  | none =>
    rw [hf] at h
    cases h
  | some p =>
    rw [hf] at h
    have hmem := List.mem_of_find?_eq_some hf
    have hkey := List.find?_some hf
    simp only [decide_eq_true_eq] at hkey
    obtain ⟨p1, p2⟩ := p
    simp only [Option.map_some'] at h
    cases h
    cases hkey
    exact hmem

/-! ## C5: multi-tagged versions never deleted -/

/-- C5 (confirmed).  For every input state and either scheme, every member
of the computed deletion set is the single tag of some active version
carrying exactly one tag, and the version the deletion step would look up
for it always carries exactly one tag — a version carrying two or more
tags never reaches the deletion set, even when all its tags match. -/
theorem multiTag_never_deleted (scheme : CleanupScheme)
    (rmatch : String → Option (List (Option String)))
    (prState : Int → String) (branches : List GithubBranch)
    (active : List ContainerPackage) (res : List String)
    (hok : ephemeralTagsToDelete scheme rmatch prState branches active =
      .ok res) :
    ∀ t ∈ res, (∃ pkg ∈ active, pkg.tags = [t]) ∧
      ∀ pkg, dget? (ephemeralFilter rmatch active).2 t = some pkg →
        pkg.tags.length = 1 := by
  intro t ht
  constructor
  · have hmatched : ∃ pkg ∈ (ephemeralFilter rmatch active).1,
        pkg.tags = [t] := by
      cases scheme with
      | branch =>
        simp only [ephemeralTagsToDelete] at hok
        cases hok
        exact ((mem_getTagToDeleteBranch rmatch branches _ t).1 ht).1
      | pullRequest =>
        simp only [ephemeralTagsToDelete] at hok
        exact ((mem_getTagsToDeletePullRequest rmatch prState _ res hok
          t).1 ht).1
    obtain ⟨pkg, hpkg, htags⟩ := hmatched
    exact ⟨pkg, ((mem_ephemeralFilter_fst rmatch active pkg).1 hpkg).1,
      htags⟩
  · intro pkg hget
    obtain ⟨pkg', _, htags', heq⟩ :=
      ephemeralFilter_snd_entries rmatch active (t, pkg)
        (dget?_mem _ t pkg hget)
    simp only at htags' heq
    rw [heq, htags']
    rfl

theorem multiTag_never_deleted_witness :
    (ephemeralTagsToDelete .branch
        (fun s => if s = "v1" then some [] else none) (fun _ => "open") []
        [ContainerPackage.mk 1 "A" "uA" ["v1"],
         ContainerPackage.mk 2 "B" "uB" ["x", "y"]] = .ok ["v1"]) ∧
    ("v1" ∈ ["v1"]) ∧
    ((∃ pkg ∈ [ContainerPackage.mk 1 "A" "uA" ["v1"],
               ContainerPackage.mk 2 "B" "uB" ["x", "y"]],
        pkg.tags = ["v1"]) ∧
      ∀ pkg, dget? (ephemeralFilter
          (fun s => if s = "v1" then some [] else none)
          [ContainerPackage.mk 1 "A" "uA" ["v1"],
           ContainerPackage.mk 2 "B" "uB" ["x", "y"]]).2 "v1" = some pkg →
        pkg.tags.length = 1) :=
  ⟨by rfl, by decide,
    multiTag_never_deleted .branch
      (fun s => if s = "v1" then some [] else none) (fun _ => "open") []
      [ContainerPackage.mk 1 "A" "uA" ["v1"],
       ContainerPackage.mk 2 "B" "uB" ["x", "y"]] ["v1"] (by rfl)
      "v1" (by decide)⟩

/-! ## C1: the keep-set -/

/-- C1 (counterexample to the claim as stated).  With one matching
single-tag version `v1` (branch scheme, no live branches) and one active
version `B` tagged `["x", "y"]`, the deletion set is `{v1}` but the
keep-set is EMPTY: the multi-tagged version `B` is skipped before
`all_pkgs_tags_to_version` is populated, so its tags `x`, `y` are not in
the keep-set handed to the verifier, refuting "the keep-set equals the set
of tags of every active tagged package version minus the deletion set;
tags of multi-tagged versions are always implicitly kept". -/
theorem keepSet_counterexample :
    ephemeralTagsToKeep .branch
        (fun s => if s = "v1" then some [] else none) (fun _ => "open") []
        [ContainerPackage.mk 1 "A" "uA" ["v1"],
         ContainerPackage.mk 2 "B" "uB" ["x", "y"]] = .ok [] ∧
      ephemeralTagsToDelete .branch
        (fun s => if s = "v1" then some [] else none) (fun _ => "open") []
        [ContainerPackage.mk 1 "A" "uA" ["v1"],
         ContainerPackage.mk 2 "B" "uB" ["x", "y"]] = .ok ["v1"] ∧
      ContainerPackage.mk 2 "B" "uB" ["x", "y"] ∈
        [ContainerPackage.mk 1 "A" "uA" ["v1"],
         ContainerPackage.mk 2 "B" "uB" ["x", "y"]] ∧
      "x" ∈ (ContainerPackage.mk 2 "B" "uB" ["x", "y"]).tags ∧
      "x" ∉ (["v1"] : List String) :=
  ⟨by rfl, by rfl, by decide, by decide, by decide⟩

/-- C1 (amended claim, proved).  The keep-set passed to the verifier equals
the set of tags of active versions carrying EXACTLY ONE tag minus the
deletion set (multi-tagged versions are skipped before the tag map is
populated, so their tags are not implicitly kept); single-tag versions
whose tag does not match the regex are always implicitly kept. -/
theorem keepSet_characterization (scheme : CleanupScheme)
    (rmatch : String → Option (List (Option String)))
    (prState : Int → String) (branches : List GithubBranch)
    (active : List ContainerPackage) (dels keeps : List String)
    (hdel : ephemeralTagsToDelete scheme rmatch prState branches active =
      .ok dels)
    (hkeep : ephemeralTagsToKeep scheme rmatch prState branches active =
      .ok keeps) :
    ∀ t, (t ∈ keeps ↔ (∃ pkg ∈ active, pkg.tags = [t]) ∧ t ∉ dels) ∧
      ((∃ pkg ∈ active, pkg.tags = [t]) → rmatch t = none → t ∈ keeps) := by
  have hkeq : keeps = (dkeys (ephemeralFilter rmatch active).2).filter
      (fun t => ¬ dels.contains t) := by
    unfold ephemeralTagsToKeep at hkeep
    rw [hdel] at hkeep
    simp only [Except.map] at hkeep
    cases hkeep
    rfl
  intro t
  have hmemkeep : t ∈ keeps ↔
      (∃ pkg ∈ active, pkg.tags = [t]) ∧ t ∉ dels := by
    rw [hkeq, List.mem_filter, mem_dkeys_ephemeralFilter_snd]
    constructor
    · rintro ⟨hex, hpred⟩
      simp only [decide_eq_true_eq] at hpred
      exact ⟨hex, fun hmem => hpred (List.elem_iff.mpr hmem)⟩
    · rintro ⟨hex, hnmem⟩
      refine ⟨hex, ?_⟩
      simp only [decide_eq_true_eq]
      exact fun hcont => hnmem (List.elem_iff.mp hcont)
  refine ⟨hmemkeep, fun hex hnone => ?_⟩
  rw [hmemkeep]
  refine ⟨hex, fun hmem => ?_⟩
  have hmatched : ∃ pkg ∈ (ephemeralFilter rmatch active).1,
      pkg.tags = [t] := by
    cases scheme with
    | branch =>
      simp only [ephemeralTagsToDelete] at hdel
      cases hdel
      exact ((mem_getTagToDeleteBranch rmatch branches _ t).1 hmem).1
    | pullRequest =>
      simp only [ephemeralTagsToDelete] at hdel
      exact ((mem_getTagsToDeletePullRequest rmatch prState _ dels hdel
        t).1 hmem).1
  obtain ⟨pkg, hpkg, htags⟩ := hmatched
  have hmat := ((mem_ephemeralFilter_fst rmatch active pkg).1 hpkg).2.2
  unfold tagMatchesRe at hmat
  rw [htags] at hmat
  simp [hnone] at hmat

theorem keepSet_characterization_witness :
    (ephemeralTagsToDelete .branch
        (fun s => if s = "v1" then some [] else none) (fun _ => "open") []
        [ContainerPackage.mk 1 "A" "uA" ["v1"],
         ContainerPackage.mk 3 "C" "uC" ["z"]] = .ok ["v1"]) ∧
    (ephemeralTagsToKeep .branch
        (fun s => if s = "v1" then some [] else none) (fun _ => "open") []
        [ContainerPackage.mk 1 "A" "uA" ["v1"],
         ContainerPackage.mk 3 "C" "uC" ["z"]] = .ok ["z"]) ∧
    (("z" ∈ ["z"] ↔
        (∃ pkg ∈ [ContainerPackage.mk 1 "A" "uA" ["v1"],
                  ContainerPackage.mk 3 "C" "uC" ["z"]],
          pkg.tags = ["z"]) ∧ "z" ∉ (["v1"] : List String)) ∧
      ((∃ pkg ∈ [ContainerPackage.mk 1 "A" "uA" ["v1"],
                 ContainerPackage.mk 3 "C" "uC" ["z"]],
          pkg.tags = ["z"]) →
        (fun s => if s = "v1" then some ([] : List (Option String))
          else none) "z" = none → "z" ∈ ["z"])) :=
  ⟨by rfl, by rfl,
    keepSet_characterization .branch
      (fun s => if s = "v1" then some [] else none) (fun _ => "open") []
      [ContainerPackage.mk 1 "A" "uA" ["v1"],
       ContainerPackage.mk 3 "C" "uC" ["z"]] ["v1"] ["z"]
      (by rfl) (by rfl) "z"⟩

/-! ## C4: untagged digest sweep -/

theorem mem_dkeys_sweepDescriptors (ds : List RegDescriptor)
    (m : List (String × ContainerPackage)) (d : String) :
    d ∈ dkeys (sweepDescriptors ds m) ↔
      d ∈ dkeys m ∧ (d = "" ∨ ¬ ∃ desc ∈ ds, desc.digest = some d) := by
  induction ds generalizing m with
  | nil => simp [sweepDescriptors]
  | cons d0 ds ih =>
    rw [show sweepDescriptors (d0 :: ds) m = sweepDescriptors ds
      (match d0.digest with
       | some dg => if dg ≠ "" ∧ dg ∈ dkeys m then ddelete m dg else m
       | none => m) from rfl]
    rw [ih]
    cases hd0 : d0.digest with
    | none =>
      simp only
      constructor
      · rintro ⟨hm, hor⟩
        refine ⟨hm, ?_⟩
        rcases hor with rfl | hnds
        · exact Or.inl rfl
        · refine Or.inr ?_
          rintro ⟨desc, hdesc, hdig⟩
          rcases List.mem_cons.mp hdesc with rfl | h'
          · rw [hd0] at hdig
            cases hdig
          · exact hnds ⟨desc, h', hdig⟩
      · rintro ⟨hm, hor⟩
        refine ⟨hm, ?_⟩
        rcases hor with rfl | hnds
        · exact Or.inl rfl
        · exact Or.inr fun ⟨desc, hdesc, hdig⟩ =>
            hnds ⟨desc, List.mem_cons_of_mem _ hdesc, hdig⟩
    | some dg =>
      by_cases hcond : dg ≠ "" ∧ dg ∈ dkeys m
      · rw [show (match some dg with
            | some dg => if dg ≠ "" ∧ dg ∈ dkeys m then ddelete m dg else m
            | none => m) = ddelete m dg from if_pos hcond]
        rw [mem_dkeys_ddelete]
        constructor
        · rintro ⟨⟨hm, hne⟩, hor⟩
          refine ⟨hm, ?_⟩
          rcases hor with rfl | hnds
          · exact Or.inl rfl
          · refine Or.inr ?_
            rintro ⟨desc, hdesc, hdig⟩
            rcases List.mem_cons.mp hdesc with rfl | h'
            · rw [hd0] at hdig
              injection hdig with hdd
              exact hne hdd.symm
            · exact hnds ⟨desc, h', hdig⟩
        · rintro ⟨hm, hor⟩
          rcases hor with rfl | hnds
          · exact ⟨⟨hm, fun heq => hcond.1 (by rw [← heq])⟩, Or.inl rfl⟩
          · refine ⟨⟨hm, fun heq =>
              hnds ⟨d0, List.mem_cons_self .., by rw [hd0, heq]⟩⟩,
              Or.inr fun ⟨desc, hdesc, hdig⟩ =>
                hnds ⟨desc, List.mem_cons_of_mem _ hdesc, hdig⟩⟩
      · rw [show (match some dg with
            | some dg => if dg ≠ "" ∧ dg ∈ dkeys m then ddelete m dg else m
            | none => m) = m from if_neg hcond]
        push_neg at hcond
        constructor
        · rintro ⟨hm, hor⟩
          by_cases hdemp : d = ""
          · exact ⟨hm, Or.inl hdemp⟩
          · rcases hor with rfl | hnds
            · exact absurd rfl hdemp
            · refine ⟨hm, Or.inr ?_⟩
              rintro ⟨desc, hdesc, hdig⟩
              rcases List.mem_cons.mp hdesc with rfl | h'
              · rw [hd0] at hdig
                injection hdig with hdd
                subst hdd
                exact hcond hdemp hm
              · exact hnds ⟨desc, h', hdig⟩
        · rintro ⟨hm, hor⟩
          by_cases hdemp : d = ""
          · exact ⟨hm, Or.inl hdemp⟩
          · rcases hor with rfl | hnds
            · exact absurd rfl hdemp
            · exact ⟨hm, Or.inr fun ⟨desc, hdesc, hdig⟩ =>
                hnds ⟨desc, List.mem_cons_of_mem _ hdesc, hdig⟩⟩

theorem mem_dkeys_untaggedSweep (fetch : String → Option RegManifest)
    (tags : List String) (m : List (String × ContainerPackage))
    (d : String) :
    d ∈ dkeys (untaggedSweep fetch tags m) ↔
      d ∈ dkeys m ∧ (d = "" ∨
        ¬ ∃ tag ∈ tags, ∃ mf, fetch tag = some mf ∧
          isMultiArchMediaType mf = true ∧
          ∃ desc ∈ mf.manifests, desc.digest = some d) := by
  induction tags generalizing m with
  | nil => simp [untaggedSweep]
  | cons tag tags ih =>
    rw [show untaggedSweep fetch (tag :: tags) m = untaggedSweep fetch tags
      (match fetch tag with
       | none => m
       | some manifest =>
         if isMultiArchMediaType manifest then
           sweepDescriptors manifest.manifests m
         else m) from rfl]
    rw [ih]
    cases hf : fetch tag with
    | none =>
      simp only
      constructor
      · rintro ⟨hm, hor⟩
        refine ⟨hm, ?_⟩
        rcases hor with rfl | hnds
        · exact Or.inl rfl
        · refine Or.inr ?_
          rintro ⟨tag', htag', mf, hmf, hrest⟩
          rcases List.mem_cons.mp htag' with rfl | h'
          · rw [hf] at hmf
            cases hmf
          · exact hnds ⟨tag', h', mf, hmf, hrest⟩
      · rintro ⟨hm, hor⟩
        refine ⟨hm, ?_⟩
        rcases hor with rfl | hnds
        · exact Or.inl rfl
        · exact Or.inr fun ⟨tag', htag', mf, hmf, hrest⟩ =>
            hnds ⟨tag', List.mem_cons_of_mem _ htag', mf, hmf, hrest⟩
    | some mf0 =>
      by_cases hmulti : isMultiArchMediaType mf0 = true
      · rw [show (match some mf0 with
            | none => m
            | some manifest =>
              if isMultiArchMediaType manifest then
                sweepDescriptors manifest.manifests m
              else m) = sweepDescriptors mf0.manifests m from if_pos hmulti]
        rw [mem_dkeys_sweepDescriptors]
        constructor
        · rintro ⟨⟨hm, hor1⟩, hor2⟩
          refine ⟨hm, ?_⟩
          by_cases hdemp : d = ""
          · exact Or.inl hdemp
          · rcases hor1 with rfl | hnd1
            · exact absurd rfl hdemp
            · rcases hor2 with rfl | hnd2
              · exact absurd rfl hdemp
              · refine Or.inr ?_
                rintro ⟨tag', htag', mf, hmf, _, hdesc⟩
                rcases List.mem_cons.mp htag' with rfl | h'
                · rw [hf] at hmf
                  injection hmf with hmm
                  subst hmm
                  exact hnd1 hdesc
                · exact hnd2 ⟨tag', h', mf, hmf, by assumption, hdesc⟩
        · rintro ⟨hm, hor⟩
          by_cases hdemp : d = ""
          · exact ⟨⟨hm, Or.inl hdemp⟩, Or.inl hdemp⟩
          · rcases hor with rfl | hnds
            · exact absurd rfl hdemp
            · refine ⟨⟨hm, Or.inr fun hdesc =>
                hnds ⟨tag, List.mem_cons_self .., mf0, hf, hmulti,
                  hdesc⟩⟩, Or.inr fun ⟨tag', htag', mf, hmf, hmul, hdesc⟩ =>
                hnds ⟨tag', List.mem_cons_of_mem _ htag', mf, hmf, hmul,
                  hdesc⟩⟩
      · rw [show (match some mf0 with
            | none => m
            | some manifest =>
              if isMultiArchMediaType manifest then
                sweepDescriptors manifest.manifests m
              else m) = m from if_neg hmulti]
        constructor
        · rintro ⟨hm, hor⟩
          refine ⟨hm, ?_⟩
          rcases hor with rfl | hnds
          · exact Or.inl rfl
          · refine Or.inr ?_
            rintro ⟨tag', htag', mf, hmf, hmul, hdesc⟩
            rcases List.mem_cons.mp htag' with rfl | h'
            · rw [hf] at hmf
              injection hmf with hmm
              subst hmm
              exact hmulti (by rw [hmul])
            · exact hnds ⟨tag', h', mf, hmf, hmul, hdesc⟩
        · rintro ⟨hm, hor⟩
          refine ⟨hm, ?_⟩
          rcases hor with rfl | hnds
          · exact Or.inl rfl
          · exact Or.inr fun ⟨tag', htag', mf, hmf, hmul, hdesc⟩ =>
              hnds ⟨tag', List.mem_cons_of_mem _ htag', mf, hmf, hmul,
                hdesc⟩

/-- C4 (confirmed).  An untagged version (digest-name `d`, never the empty
string for a real digest) survives in the deletion candidates iff no kept
tag's successfully fetched multi-arch index references `d` through one of
its descriptors; failed fetches contribute nothing and abort nothing. -/
theorem untaggedSweep_deletionSet (fetch : String → Option RegManifest)
    (tags : List String) (untagged : List (String × ContainerPackage))
    (hne : "" ∉ dkeys untagged) :
    ∀ d ∈ dkeys untagged,
      d ∈ dkeys (untaggedSweep fetch tags untagged) ↔
        ¬ ∃ tag ∈ tags, ∃ mf, fetch tag = some mf ∧
          isMultiArchMediaType mf = true ∧
          ∃ desc ∈ mf.manifests, desc.digest = some d := by
  intro d hd
  have hdne : d ≠ "" := fun h => hne (h ▸ hd)
  rw [mem_dkeys_untaggedSweep]
  constructor
  · rintro ⟨_, hor⟩
    rcases hor with rfl | h
    · exact absurd rfl hdne
    · exact h
  · intro h
    exact ⟨hd, Or.inr h⟩

theorem untaggedSweep_deletionSet_witness :
    ("" ∉ dkeys [("sha256:abc", ContainerPackage.mk 5 "sha256:abc" "u" []),
                 ("sha256:def", ContainerPackage.mk 6 "sha256:def" "u" [])]) ∧
    ("sha256:abc" ∈
      dkeys [("sha256:abc", ContainerPackage.mk 5 "sha256:abc" "u" []),
             ("sha256:def", ContainerPackage.mk 6 "sha256:def" "u" [])]) ∧
    ("sha256:abc" ∈ dkeys (untaggedSweep
        (fun t => if t = "latest" then
          some (RegManifest.mk OCI_INDEX_MEDIA_TYPE
            [RegDescriptor.mk (some "sha256:abc") OCI_MANIFEST_MEDIA_TYPE])
          else none)
        ["latest", "gone"]
        [("sha256:abc", ContainerPackage.mk 5 "sha256:abc" "u" []),
         ("sha256:def", ContainerPackage.mk 6 "sha256:def" "u" [])]) ↔
      ¬ ∃ tag ∈ ["latest", "gone"], ∃ mf,
        (fun t => if t = "latest" then
          some (RegManifest.mk OCI_INDEX_MEDIA_TYPE
            [RegDescriptor.mk (some "sha256:abc") OCI_MANIFEST_MEDIA_TYPE])
          else none) tag = some mf ∧
        isMultiArchMediaType mf = true ∧
        ∃ desc ∈ mf.manifests, desc.digest = some "sha256:abc") :=
  ⟨by decide, by decide,
    untaggedSweep_deletionSet
      (fun t => if t = "latest" then
        some (RegManifest.mk OCI_INDEX_MEDIA_TYPE
          [RegDescriptor.mk (some "sha256:abc") OCI_MANIFEST_MEDIA_TYPE])
        else none)
      ["latest", "gone"]
      [("sha256:abc", ContainerPackage.mk 5 "sha256:abc" "u" []),
       ("sha256:def", ContainerPackage.mk 6 "sha256:def" "u" [])]
      (by decide) "sha256:abc" (by decide)⟩

/-! ## C8: post-deletion verifier -/

theorem all_eq_false_iff {α : Type} (l : List α) (p : α → Bool) :
    l.all p = false ↔ ∃ x ∈ l, p x = false := by
  rw [← Bool.not_eq_true, List.all_eq_true]
  push_neg
  simp [Bool.not_eq_true]

/-- C8 (confirmed).  The run's terminal failure is raised iff at least one
tag failed (failures aggregate, sibling tags are still checked); a tag
whose own manifest fetch fails is reported failed; and a tag whose
multi-arch index contains a checked descriptor (truthy digest, known
manifest media type) whose digest manifest fails to fetch is reported
failed even when the sibling digests succeed. -/
theorem verifier_aggregation (fetch : String → Option RegManifest)
    (tags : List String) :
    (checkTagsStillValid fetch tags = false ↔
      ∃ tag ∈ tags, checkSingleTag fetch tag = false) ∧
    (∀ tag, fetch tag = none → checkSingleTag fetch tag = false) ∧
    (∀ tag root, fetch tag = some root →
      isMultiArchMediaType root = true →
      ∀ desc ∈ root.manifests, ∀ dg, desc.digest = some dg → dg ≠ "" →
        desc.mediaType ∈ MANIFEST_MEDIA_TYPES → fetch dg = none →
        checkSingleTag fetch tag = false) := by
  refine ⟨?_, ?_, ?_⟩
  · unfold checkTagsStillValid
    exact all_eq_false_iff tags (checkSingleTag fetch)
  · intro tag h
    unfold checkSingleTag
    rw [h]
  · intro tag root hf hmulti desc hdesc dg hdg hne hmt hfd
    unfold checkSingleTag
    rw [hf]
    simp only
    rw [if_pos hmulti]
    rw [all_eq_false_iff]
    refine ⟨desc, ?_, ?_⟩
    · rw [List.mem_filter]
      refine ⟨hdesc, ?_⟩
      simp only [decide_eq_true_eq]
      exact ⟨by rw [hdg]; exact hne, hmt⟩
    · unfold checkDigestIsValid
      rw [hdg]
      simp only [Option.getD_some, hfd, Option.isSome_none]

theorem verifier_aggregation_witness :
    ((fun r : String => if r = "tag1" then
        some (RegManifest.mk OCI_INDEX_MEDIA_TYPE
          [RegDescriptor.mk (some "sha256:1") OCI_MANIFEST_MEDIA_TYPE,
           RegDescriptor.mk (some "sha256:2") OCI_MANIFEST_MEDIA_TYPE,
           RegDescriptor.mk (some "sha256:3") OCI_MANIFEST_MEDIA_TYPE])
      else if r = "sha256:2" then none
      else some (RegManifest.mk OCI_MANIFEST_MEDIA_TYPE [])) "sha256:2" =
        none) ∧
    checkSingleTag
      (fun r : String => if r = "tag1" then
        some (RegManifest.mk OCI_INDEX_MEDIA_TYPE
          [RegDescriptor.mk (some "sha256:1") OCI_MANIFEST_MEDIA_TYPE,
           RegDescriptor.mk (some "sha256:2") OCI_MANIFEST_MEDIA_TYPE,
           RegDescriptor.mk (some "sha256:3") OCI_MANIFEST_MEDIA_TYPE])
      else if r = "sha256:2" then none
      else some (RegManifest.mk OCI_MANIFEST_MEDIA_TYPE [])) "tag1" =
        false :=
  ⟨by decide,
    (verifier_aggregation
      (fun r : String => if r = "tag1" then
        some (RegManifest.mk OCI_INDEX_MEDIA_TYPE
          [RegDescriptor.mk (some "sha256:1") OCI_MANIFEST_MEDIA_TYPE,
           RegDescriptor.mk (some "sha256:2") OCI_MANIFEST_MEDIA_TYPE,
           RegDescriptor.mk (some "sha256:3") OCI_MANIFEST_MEDIA_TYPE])
      else if r = "sha256:2" then none
      else some (RegManifest.mk OCI_MANIFEST_MEDIA_TYPE []))
      ["tag1"]).2.2 "tag1"
      (RegManifest.mk OCI_INDEX_MEDIA_TYPE
        [RegDescriptor.mk (some "sha256:1") OCI_MANIFEST_MEDIA_TYPE,
         RegDescriptor.mk (some "sha256:2") OCI_MANIFEST_MEDIA_TYPE,
         RegDescriptor.mk (some "sha256:3") OCI_MANIFEST_MEDIA_TYPE])
      (by decide) (by decide)
      (RegDescriptor.mk (some "sha256:2") OCI_MANIFEST_MEDIA_TYPE)
      (by decide) "sha256:2" (by decide) (by decide) (by decide)
      (by decide)⟩

/-! ## Pagination lemmas -/

theorem foldl_dinsert_append {κ α : Type} [DecidableEq κ]
    (results : List (κ × α)) (acc : List (κ × α))
    (h : (dkeys acc ++ dkeys results).Nodup) :
    results.foldl (fun m r => dinsert m r.1 r.2) acc = acc ++ results := by
  induction results generalizing acc with
  | nil => simp
  | cons r rs ih =>
    simp only [List.foldl_cons]
    have hkeys : dkeys (r :: rs) = r.1 :: dkeys rs := rfl
    rw [hkeys] at h
    have hr : r.1 ∉ dkeys acc := by
      intro hmem
      obtain ⟨_, _, hdisj⟩ := List.nodup_append.mp h
      exact hdisj hmem (List.mem_cons_self ..)
    have hdin : dinsert acc r.1 r.2 = acc ++ [r] := by
      unfold dinsert
      rw [if_neg]
      intro hany
      simp only [List.any_eq_true, decide_eq_true_eq] at hany
      obtain ⟨p, hp, hpk⟩ := hany
      exact hr (hpk ▸ List.mem_map_of_mem Prod.fst hp)
    rw [hdin, ih]
    · simp
    · have : dkeys (acc ++ [r]) = dkeys acc ++ [r.1] := by
        simp [dkeys]
      rw [this, List.append_assoc]
      exact h

theorem dget?_head {κ α : Type} [DecidableEq κ] (k : κ) (v : α)
    (m : List (κ × α)) : dget? ((k, v) :: m) k = some v := by
  unfold dget?
  rw [List.find?_cons_of_pos _ (by simp)]
  rfl

theorem dget?_cons_of_ne {κ α : Type} [DecidableEq κ] (k k' : κ) (v : α)
    (m : List (κ × α)) (h : k' ≠ k) :
    dget? ((k, v) :: m) k' = dget? m k' := by
  unfold dget?
  rw [List.find?_cons_of_neg _ (by simpa using fun heq => h heq.symm)]

theorem dget?_map_pair {κ α : Type} [DecidableEq κ] (order : List κ)
    (g : κ → α) (p : κ) (hp : p ∈ order) :
    dget? (order.map (fun q => (q, g q))) p = some (g p) := by
  induction order with
  | nil => cases hp
  | cons q qs ih =>
    simp only [List.map_cons]
    by_cases hq : p = q
    · subst hq
      exact dget?_head p (g p) _
    · rw [dget?_cons_of_ne _ _ _ _ hq]
      rcases List.mem_cons.mp hp with rfl | h'
      · exact absurd rfl hq
      · exact ih h'

theorem foldl_append_eq_flatten {α β : Type} (l : List α) (v : α → List β)
    (init : List β) :
    l.foldl (fun acc x => acc ++ v x) init = init ++ (l.map v).flatten := by
  induction l generalizing init with
  | nil => simp
  | cons x xs ih => simp [ih]

theorem pySortedNat_eq_of_perm (l r : List Nat) (hperm : l.Perm r)
    (hsorted : List.Sorted (· ≤ ·) r) : pySortedNat l = r :=
  List.eq_of_perm_of_sorted ((List.perm_insertionSort _ l).trans hperm)
    (List.sorted_insertionSort _ l) hsorted

/-! ## C7: pagination order -/

/-- C7 (confirmed).  When the first response's Link header names last page
`n ≥ 2`, and whatever the completion order of the concurrent fetches of
pages 2..n, the returned sequence is the concatenation of the pages'
items in ascending page order 1..n; and when the first response carries no
Link header, the result is exactly the first page's items. -/
theorem pagination_ordered {Item : Type} (firstPage : List Item)
    (header : String) (fetchPage : Nat → List Item) (order : List Nat)
    (n : Nat) (hn : 2 ≤ n)
    (hlast : extractPageNumber
      ((dget? (parseLinkHeader header) "last").getD "") = some n)
    (hheader : header ≠ "")
    (hperm : order.Perm (List.range' 2 (n - 1))) :
    githubList firstPage header fetchPage order =
      firstPage ++ ((List.range' 2 (n - 1)).map fetchPage).flatten ∧
    ∀ (fp : List Item) (ord : List Nat),
      githubList fp "" fetchPage ord = fp := by
  obtain ⟨m, rfl⟩ : ∃ m, n = m + 2 := ⟨n - 2, by omega⟩
  have hm1 : m + 2 - 1 = m + 1 := by omega
  rw [hm1] at hperm ⊢
  constructor
  · simp only [githubList]
    rw [if_neg hheader, hlast]
    simp only
    rw [if_neg (by omega : ¬(m + 2 = 0 ∨ m + 2 = 1))]
    simp only [assemblePages]
    have hrange : List.range' 1 (m + 2) = 1 :: List.range' 2 (m + 1) :=
      List.range'_succ 1 (m + 1) 1
    have hordnodup : (1 : Nat) ∉ order ∧ order.Nodup := by
      constructor
      · intro hmem
        have := hperm.mem_iff.mp hmem
        rw [List.mem_range'_1] at this
        omega
      · exact hperm.nodup_iff.mpr (List.nodup_range' 2 (m + 1))
    have hnodup : (dkeys [((1 : Nat), firstPage)] ++
        dkeys (order.map (fun p => (p, fetchPage p)))).Nodup := by
      have hkeys : dkeys (order.map (fun p => (p, fetchPage p))) = order := by
        simp [dkeys, List.map_map, Function.comp_def]
      rw [hkeys]
      show ((1 : Nat) :: order).Nodup
      exact List.nodup_cons.mpr ⟨hordnodup.1, hordnodup.2⟩
    rw [foldl_dinsert_append _ _ hnodup]
    simp only [List.singleton_append]
    have hkeys2 : dkeys (((1 : Nat), firstPage) ::
        order.map (fun p => (p, fetchPage p))) = 1 :: order := by
      simp [dkeys, List.map_map, Function.comp_def]
    rw [hkeys2]
    have hsort : pySortedNat (1 :: order) = List.range' 1 (m + 2) := by
      apply pySortedNat_eq_of_perm
      · rw [hrange]
        exact hperm.cons 1
      · exact List.Pairwise.imp le_of_lt (List.pairwise_lt_range' 1 (m + 2))
    rw [hsort, foldl_append_eq_flatten, List.nil_append, hrange,
      List.map_cons, List.flatten_cons]
    have hhead : (dget? (((1 : Nat), firstPage) ::
        order.map (fun p => (p, fetchPage p))) 1).getD [] = firstPage := by
      rw [dget?_head]
      rfl
    rw [hhead]
    apply congrArg
    apply congrArg List.flatten
    apply List.map_congr_left
    intro p hp
    have hp1 : p ≠ 1 := by
      rw [List.mem_range'_1] at hp
      omega
    rw [dget?_cons_of_ne _ _ _ _ hp1,
      dget?_map_pair order fetchPage p (hperm.mem_iff.mpr hp)]
    rfl
  · intro fp ord
    simp [githubList]

theorem pagination_ordered_witness :
    (2 ≤ 3) ∧
    (extractPageNumber ((dget? (parseLinkHeader
      "<https://a?page=2>; rel=\"next\", <https://a?page=3>; rel=\"last\"")
      "last").getD "") = some 3) ∧
    ("<https://a?page=2>; rel=\"next\", <https://a?page=3>; rel=\"last\""
      ≠ "") ∧
    (([3, 2] : List Nat).Perm (List.range' 2 (3 - 1))) ∧
    (githubList [10, 11]
      "<https://a?page=2>; rel=\"next\", <https://a?page=3>; rel=\"last\""
      (fun p => [p * 100]) [3, 2] =
        [10, 11] ++ ((List.range' 2 (3 - 1)).map (fun p => [p * 100])).flatten ∧
      ∀ (fp : List Nat) (ord : List Nat),
        githubList fp "" (fun p => [p * 100]) ord = fp) :=
  ⟨by decide, by decide, by decide, by decide,
    pagination_ordered [10, 11]
      "<https://a?page=2>; rel=\"next\", <https://a?page=3>; rel=\"last\""
      (fun p => [p * 100]) [3, 2] 3 (by decide) (by decide) (by decide)
      (by decide)⟩

/-! ## C10: pagination without a usable last relation -/

/-- C10 (confirmed).  When the first response carries a nonempty Link
header from which no page number can be extracted out of the `last`
relation (including a missing `last` relation entirely), or whose `last`
page is 1, the paginated list returns exactly the first page's items and
does not raise — any pages reachable only through `next` are silently
omitted. -/
theorem pagination_no_last {Item : Type} (firstPage : List Item)
    (header : String) (fetchPage : Nat → List Item) (order : List Nat)
    (hheader : header ≠ "")
    (hlast : extractPageNumber
        ((dget? (parseLinkHeader header) "last").getD "") = none ∨
      extractPageNumber
        ((dget? (parseLinkHeader header) "last").getD "") = some 1) :
    githubList firstPage header fetchPage order = firstPage := by
  simp only [githubList]
  rw [if_neg hheader]
  rcases hlast with h | h
  · rw [h]
  · rw [h]
    simp

theorem pagination_no_last_witness :
    ("<https://a?page=2>; rel=\"next\"" ≠ "") ∧
    (extractPageNumber ((dget? (parseLinkHeader
        "<https://a?page=2>; rel=\"next\"") "last").getD "") = none) ∧
    githubList [10, 11] "<https://a?page=2>; rel=\"next\""
      (fun p => [p * 100]) [9] = [10, 11] :=
  ⟨by decide, by decide,
    pagination_no_last [10, 11] "<https://a?page=2>; rel=\"next\""
      (fun p => [p * 100]) [9] (by decide) (Or.inl (by decide))⟩

end ImageCleaner
